import Mathlib

/-!
Shallow embedding of the `tinyvote` library (file `src/tinyvote/tinyvote.py`).

The library is a thin orchestration layer over the external `tinynmc`
MPC primitive.  The primitive is out of scope (it is not part of this
repository), so its four capabilities are passed to each embedded
operation as explicit function parameters:

* `pmasks   : S → R → List (K × V)`   models `tinynmc.node.masks` — a mask
  is a Python `dict` from coordinates to masking material, embedded as an
  association list in insertion order;
* `pmf      : List (K × Nat) → List (List (K × V)) → M` models
  `tinynmc.masked_factors`;
* `pcompute : S → List Nat → List M → F × S` models `tinynmc.node.compute`
  together with any in-place mutation of the sub-instance's state (the
  returned `S` is the sub-instance's state after the call);
* `ppre     : List Nat → List S → List S` models `tinynmc.preprocess`,
  which mutates the given aligned sub-instances jointly in place; the
  result is the list of their updated states (in-place mutation cannot
  change how many there are, which the theorems record as the hypothesis
  that `ppre` preserves length);
* `pnew     : S` models `tinynmc.node()`, the state of a freshly
  constructed sub-instance.

Python's fallible operations (indexing a list or a `dict`'s key view out
of range, using an attribute that is still `None`) are embedded as
`Option`: a raised exception is `none`.
-/

namespace TinyVote

/-- Python class `node`: private attributes `_signature`, `_choices` and
`_nodes`, all initialized to `None` by `__init__` and set by `preprocess`.
`S` is the (opaque) state type of a `tinynmc` sub-instance. -/
structure node (S : Type) where
  _signature : Option (List Nat)
  _choices : Option Nat
  _nodes : Option (List S)
deriving DecidableEq

/-- Python `node.__init__`: all three attributes start as `None`. -/
def node.init {S : Type} : node S := ⟨none, none, none⟩

/-- Python class `request`: `request(identifier)` is the one-element list
`[(0, identifier)]`. -/
def request (identifier : Int) : List (Nat × Int) := [(0, identifier)]

/-- Python `node.masks(self, request)`:
`[tinynmc.node.masks(self._nodes[i], request) for i in range(self._choices)]`.
Reading `self._choices` or `self._nodes` while still `None`, or indexing
`self._nodes` out of range, fails. -/
def node.masks {S R K V : Type} (pmasks : S → R → List (K × V))
    (nd : node S) (req : R) : Option (List (List (K × V))) := do
  let c ← nd._choices
  let subs ← nd._nodes
  (List.range c).mapM (fun i => (subs[i]?).map (fun s => pmasks s req))

/-- Python `node.outcome(self, votes)`:
`choices = len(votes[0])` followed by
`[self._nodes[i].compute(self._signature, [vote_[i] for vote_ in votes])
  for i in range(choices)]`.
The returned pair is (the computed share, the node after the call): the
node's `_nodes` list keeps its identity, with the sub-instances at slots
`0 .. choices-1` replaced by their post-`compute` states. -/
def node.outcome {S M F : Type} (pcompute : S → List Nat → List M → F × S)
    (nd : node S) (votes : List (List M)) : Option (List F × node S) := do
  let v0 ← votes.head?
  let sig ← nd._signature
  let subs ← nd._nodes
  let results ← (List.range v0.length).mapM (fun i => do
    let s ← subs[i]?
    let col ← votes.mapM (fun v => v[i]?)
    pure (pcompute s sig col))
  pure (results.map Prod.fst,
    { nd with _nodes := some (results.map Prod.snd ++ subs.drop v0.length) })

/-- Python `vote.__init__(self, masks, choice)`:
`choices = len(masks[0])`; for each `i` in `range(choices)`,
`masks_i = [mask[i] for mask in masks]`,
`key = list(masks_i[0].keys())[0]`,
`coordinate_to_value = {key: 2 if i == choice else 1}`, and the `i`-th
entry of the vote is `tinynmc.masked_factors(coordinate_to_value, masks_i)`.
`choice` is an arbitrary Python integer, so it is embedded as `Int`. -/
def vote {K V M : Type} (pmf : List (K × Nat) → List (List (K × V)) → M)
    (masks : List (List (List (K × V)))) (choice : Int) : Option (List M) := do
  let m0 ← masks.head?
  (List.range m0.length).mapM (fun (i : Nat) => do
    let masks_i ← masks.mapM (fun mask => mask[i]?)
    let first ← masks_i.head?
    let key ← (first.map Prod.fst).head?
    pure (pmf [(key, if (i : Int) = choice then 2 else 1)] masks_i))

/-- One iteration of the second loop of Python `preprocess`: for a slot
index `i`, `tinynmc.preprocess(signature, [node_._nodes[i] for node_ in
nodes])` is run on the column of every node's `i`-th sub-instance, and
each node's slot `i` receives its updated state.  `mats` is the matrix of
all nodes' sub-instance states (one row per node). -/
def preprocessStep {S : Type} (pnew : S) (ppre : List Nat → List S → List S)
    (sig : List Nat) (mats : List (List S)) (i : Nat) : List (List S) :=
  List.zipWith (fun row s => row.set i s) mats
    (ppre sig (mats.map (fun row => row.getD i pnew)))

/-- Python `preprocess(nodes, votes, choices)`:
`signature = [votes]`; every node gets `_signature = signature`,
`_choices = choices` and a fresh `_nodes = [tinynmc.node() for _ in
range(choices)]`; then `for i in range(choices)` the joint
`tinynmc.preprocess` call is made on the column of the nodes' `i`-th
sub-instances.  The result is the list of the nodes' states after the
call (the input states are overwritten wholesale, so only the number of
nodes matters). -/
def preprocess {S : Type} (pnew : S) (ppre : List Nat → List S → List S)
    (nodes : List (node S)) (votes choices : Nat) : List (node S) :=
  let signature := [votes]
  let mats := (List.range choices).foldl (preprocessStep pnew ppre signature)
    (List.replicate nodes.length (List.replicate choices pnew))
  mats.map (fun subs => ⟨some signature, some choices, some subs⟩)

/-- Python `int.bit_length()` on a non-negative integer:
`0` for `0`, otherwise the position of the highest set bit plus one. -/
def bit_length (n : Nat) : Nat := if n = 0 then 0 else Nat.log2 n + 1

/-- Python `reveal(shares)`:
`choices = len(shares[0])` followed by
`[int(sum(share[i] for share in shares)).bit_length() - 1
  for i in range(choices)]`.
A share entry is an element of the field of integers modulo `p`
(a `modulo.modulo` value), embedded as its canonical representative in
`Nat`; summing with field addition and converting with `int` yields the
sum of the representatives reduced mod `p`.  The Python subtraction is
over unbounded integers, so the entries of the result are `Int`. -/
def reveal (p : Nat) (shares : List (List Nat)) : Option (List Int) := do
  let s0 ← shares.head?
  (List.range s0.length).mapM (fun i => do
    let col ← shares.mapM (fun share => share[i]?)
    pure ((bit_length (col.sum % p) : Int) - 1))

/-- The body of the slot loop of `vote.__init__`, for slot `i`. -/
def voteBody {K V M : Type} (pmf : List (K × Nat) → List (List (K × V)) → M)
    (masks : List (List (List (K × V)))) (choice : Int) (i : Nat) : Option M :=
  (masks.mapM (fun mask => mask[i]?)).bind (fun masks_i =>
    (masks_i.head?).bind (fun first =>
      ((first.map Prod.fst).head?).bind (fun key =>
        some (pmf [(key, if (i : Int) = choice then 2 else 1)] masks_i))))

/-- The body of the slot loop of `node.outcome`, for slot `i`. -/
def outcomeBody {S M F : Type} (pcompute : S → List Nat → List M → F × S)
    (sig : List Nat) (subs : List S) (votes : List (List M)) (i : Nat) :
    Option (F × S) :=
  (subs[i]?).bind (fun s =>
    (votes.mapM (fun v => v[i]?)).bind (fun col =>
      some (pcompute s sig col)))

/-! ### Helper lemmas about `List.mapM` over `Option` -/

/-- If `f` succeeds on every element of `l`, then `l.mapM f` succeeds,
the result has the length of `l`, and its `i`-th entry is `f` applied to
the `i`-th entry of `l`. -/
theorem mapM_option_exists {α β : Type} {f : α → Option β} :
    ∀ {l : List α}, (∀ a ∈ l, ∃ b, f a = some b) →
      ∃ r, l.mapM f = some r ∧ r.length = l.length ∧
        ∀ i : Nat, r[i]? = (l[i]?).bind f := by
  intro l
  induction l with
  | nil =>
    intro _
    exact ⟨[], rfl, rfl, fun i => by simp⟩
  | cons x xs ih =>
    intro h
    obtain ⟨b, hb⟩ := h x (by simp)
    obtain ⟨r, hr, hrl, hri⟩ := ih (fun a ha => h a (by simp [ha]))
    refine ⟨b :: r, ?_, by simp [hrl], ?_⟩
    · show (x :: xs).mapM f = some (b :: r)
      rw [List.mapM_cons, hb, hr]
      rfl
    · intro i
      cases i with
      | zero => simp [hb]
      | succ n => simpa using hri n

/-- Inversion: if `l.mapM f` succeeds then `f` succeeded on every element
of `l` and the result has the length of `l`. -/
theorem mapM_option_some {α β : Type} {f : α → Option β} :
    ∀ {l : List α} {r : List β}, l.mapM f = some r →
      r.length = l.length ∧ ∀ a ∈ l, ∃ b, f a = some b := by
  intro l
  induction l with
  | nil =>
    intro r hr
    simp only [List.mapM_nil] at hr
    cases hr
    exact ⟨rfl, by simp⟩
  | cons x xs ih =>
    intro r hr
    simp only [List.mapM_cons] at hr
    rw [Option.bind_eq_bind, Option.bind_eq_some] at hr
    obtain ⟨b, hb, hr⟩ := hr
    rw [Option.bind_eq_bind, Option.bind_eq_some] at hr
    obtain ⟨rs, hrs, hr⟩ := hr
    simp only [Option.pure_def, Option.some.injEq] at hr
    obtain ⟨hlen, hall⟩ := ih hrs
    constructor
    · simp [← hr, hlen]
    · intro a ha
      rcases List.mem_cons.mp ha with ha | ha
      · exact ⟨b, ha ▸ hb⟩
      · exact hall a ha

/-- If `f` equals `some ∘ g` on every element of `l`, then `l.mapM f`
returns `l.map g`. -/
theorem mapM_option_eq_map {α β : Type} {f : α → Option β} {g : α → β} :
    ∀ {l : List α}, (∀ a ∈ l, f a = some (g a)) → l.mapM f = some (l.map g) := by
  intro l
  induction l with
  | nil => intro _; rfl
  | cons x xs ih =>
    intro h
    rw [List.mapM_cons, h x (by simp), ih (fun a ha => h a (by simp [ha]))]
    rfl

/-! ### Characterization of `reveal` -/

/-- On a non-empty list of shares that all have length `c`, `reveal`
computes, for each slot `i < c`, `bit_length` of the mod-`p` sum of the
slot's components across all shares, minus one. -/
theorem reveal_char (p : Nat) (shares : List (List Nat)) (c : Nat)
    (hne : shares ≠ []) (hlen : ∀ sh ∈ shares, sh.length = c) :
    reveal p shares = some ((List.range c).map (fun i =>
      ((bit_length ((shares.map (fun sh => sh.getD i 0)).sum % p) : Int) - 1))) := by
  obtain ⟨s0, rest, rfl⟩ := List.exists_cons_of_ne_nil hne
  have hc0 : s0.length = c := hlen s0 (by simp)
  show ((s0 :: rest).head?).bind (fun s0 => (List.range s0.length).mapM _) = _
  rw [List.head?_cons, Option.some_bind, hc0]
  refine mapM_option_eq_map ?_
  intro i hi
  rw [List.mem_range] at hi
  show ((s0 :: rest).mapM (fun share => share[i]?)).bind _ = _
  rw [mapM_option_eq_map (g := fun sh => sh.getD i 0) ?_]
  · rfl
  · intro sh hsh
    have hil : i < sh.length := by rw [hlen sh hsh]; exact hi
    simp [List.getD_eq_getElem?_getD, List.getElem?_eq_getElem hil]

/-- C1: for every non-empty sequence `shares` whose entries all have
length `c`, `reveal` returns a sequence of length `c` whose entry `i` is
`bit_length` minus one of the non-negative integer obtained by summing,
with field (mod-`p`) addition, the `i`-th component of every share. -/
theorem reveal_spec (p : Nat) (shares : List (List Nat)) (c : Nat)
    (hne : shares ≠ []) (hlen : ∀ sh ∈ shares, sh.length = c) :
    ∃ l, reveal p shares = some l ∧ l.length = c ∧
      ∀ i, i < c → l[i]? =
        some ((bit_length ((shares.map (fun sh => sh.getD i 0)).sum % p) : Int) - 1) := by
  refine ⟨_, reveal_char p shares c hne hlen, by simp, ?_⟩
  intro i hi
  simp [List.getElem?_range hi]

/-- C1 witness: `reveal` on the concrete shares `[[3, 5], [1, 2]]` mod 97. -/
theorem reveal_spec_witness :
    ∃ l, reveal 97 [[3, 5], [1, 2]] = some l ∧ l.length = 2 ∧
      ∀ i, i < 2 → l[i]? =
        some ((bit_length ((([[3, 5], [1, 2]] : List (List Nat)).map
          (fun sh => sh.getD i 0)).sum % 97) : Int) - 1) :=
  reveal_spec 97 [[3, 5], [1, 2]] 2 (by decide) (by decide)

/-- C7 counterexample: a slot whose reconstructed field sum is zero is
not special-cased — `reveal` yields `-1` for it, not `0` and not an
error. -/
theorem reveal_zero_counterexample :
    reveal 97 [[0]] = some [-1] ∧ reveal 97 [[0]] ≠ some [0] := by
  exact ⟨rfl, by decide⟩

/-- C7 amended: when the `i`-th slot's reconstructed field sum is zero,
`reveal` succeeds and that slot of the result is `bit_length(0) - 1 = -1`;
no special-casing to `0` and no error occurs. -/
theorem reveal_zero_slot (p : Nat) (shares : List (List Nat)) (c i : Nat)
    (hne : shares ≠ []) (hlen : ∀ sh ∈ shares, sh.length = c) (hi : i < c)
    (hz : (shares.map (fun sh => sh.getD i 0)).sum % p = 0) :
    ∃ l, reveal p shares = some l ∧ l[i]? = some (-1) := by
  refine ⟨_, reveal_char p shares c hne hlen, ?_⟩
  have hz' : (shares.map (fun sh => (sh[i]?).getD 0)).sum % p = 0 := by
    simpa [List.getD_eq_getElem?_getD] using hz
  simp [List.getElem?_range hi, hz', bit_length]

/-- C7 witness: a single all-zero share mod 97. -/
theorem reveal_zero_slot_witness :
    ∃ l, reveal 97 [[0]] = some l ∧ l[0]? = some (-1) :=
  reveal_zero_slot 97 [[0]] 1 0 (by decide) (by decide) (by decide) (by decide)

/-! ### Characterization of `node.masks` -/

/-- C5: on a node whose `_choices` is `c` and whose `_nodes` holds `c`
sub-instances, `node.masks` returns exactly `c` masks in slot order, the
`i`-th being the primitive's mask for the `i`-th sub-instance and the
request. -/
theorem masks_spec {S R K V : Type} (pmasks : S → R → List (K × V))
    (nd : node S) (req : R) (c : Nat) (subs : List S)
    (hch : nd._choices = some c) (hsubs : nd._nodes = some subs)
    (hlen : subs.length = c) :
    ∃ l, node.masks pmasks nd req = some l ∧ l.length = c ∧
      ∀ (i : Nat) (s : S), subs[i]? = some s → l[i]? = some (pmasks s req) := by
  have hmasks : node.masks pmasks nd req =
      (List.range c).mapM (fun i => (subs[i]?).map (fun s => pmasks s req)) := by
    simp [node.masks, hch, hsubs]
  have hsucc : ∀ i ∈ List.range c,
      ∃ b, (subs[i]?).map (fun s => pmasks s req) = some b := by
    intro i hi
    rw [List.mem_range] at hi
    have hil : i < subs.length := hlen ▸ hi
    exact ⟨pmasks subs[i] req, by simp [List.getElem?_eq_getElem hil]⟩
  obtain ⟨r, hr, hrl, hri⟩ := mapM_option_exists hsucc
  refine ⟨r, hmasks ▸ hr, by simp [hrl], ?_⟩
  intro i s hs
  have hil : i < subs.length := by
    by_contra hge
    rw [List.getElem?_eq_none (Nat.le_of_not_lt hge)] at hs
    cases hs
  have hic : i < c := hlen ▸ hil
  rw [hri i, List.getElem?_range hic]
  simp [hs]

/-- C5 witness: a preprocessed node with two sub-instances. -/
theorem masks_spec_witness :
    ∃ l, node.masks (fun (s r : Nat) => [(s, r)])
        (⟨some [4], some 2, some [10, 20]⟩ : node Nat) 7 = some l ∧
      l.length = 2 ∧
      ∀ (i : Nat) (s : Nat), ([10, 20] : List Nat)[i]? = some s → l[i]? = some [(s, 7)] :=
  masks_spec (fun (s r : Nat) => [(s, r)])
    (⟨some [4], some 2, some [10, 20]⟩ : node Nat) 7 2 [10, 20] rfl rfl rfl

/-- C8: `node.masks` is a function of the node's preprocessing-established
state (`_choices` and `_nodes`) and the request only — two calls on
identical such state with an identical request return identical output,
with no hidden randomness (the stored `_signature` is not even read). -/
theorem masks_deterministic {S R K V : Type} (pmasks : S → R → List (K × V))
    (nd1 nd2 : node S) (req : R)
    (hch : nd1._choices = nd2._choices) (hsubs : nd1._nodes = nd2._nodes) :
    node.masks pmasks nd1 req = node.masks pmasks nd2 req := by
  simp [node.masks, hch, hsubs]

/-- C8 witness: two nodes sharing `_choices` and `_nodes` (one even lacks
a signature) yield the same masks for the same request. -/
theorem masks_deterministic_witness :
    node.masks (fun (s r : Nat) => [(s, r)])
        (⟨some [5], some 1, some [3]⟩ : node Nat) 7 =
      node.masks (fun (s r : Nat) => [(s, r)])
        (⟨none, some 1, some [3]⟩ : node Nat) 7 :=
  masks_deterministic (fun (s r : Nat) => [(s, r)])
    (⟨some [5], some 1, some [3]⟩ : node Nat)
    (⟨none, some 1, some [3]⟩ : node Nat) 7 rfl rfl

/-! ### Characterization of `vote` -/

theorem vote_eq_body {K V M : Type} (pmf : List (K × Nat) → List (List (K × V)) → M)
    (masks : List (List (List (K × V)))) (choice : Int) :
    vote pmf masks choice =
      (masks.head?).bind (fun m0 =>
        (List.range m0.length).mapM (voteBody pmf masks choice)) := rfl

/-- Full characterization of `vote`: under a non-empty masks collection
whose per-node mask lists all have length `c` and whose first node's
masks each contain a key, the vote has `c` entries and entry `i` is the
masked-factors combination of the singleton mapping
`{key ↦ 2 if i = choice else 1}` (the key being the first key of the
first node's slot-`i` mask) with the slot-`i` masks of all nodes. -/
theorem vote_char {K V M : Type} (pmf : List (K × Nat) → List (List (K × V)) → M)
    (masks : List (List (List (K × V)))) (choice : Int)
    (m0 : List (List (K × V))) (c : Nat)
    (h0 : masks.head? = some m0) (hc : m0.length = c)
    (hlen : ∀ m ∈ masks, m.length = c) (hkey : ∀ mk ∈ m0, mk ≠ []) :
    ∃ entries, vote pmf masks choice = some entries ∧ entries.length = c ∧
      ∀ (i : Nat) (cols : List (List (K × V))) (key : K),
        masks.mapM (fun m => m[i]?) = some cols →
        (cols.head?).bind (fun mk => (mk.map Prod.fst).head?) = some key →
        entries[i]? = some (pmf [(key, if (i : Int) = choice then 2 else 1)] cols) := by
  rcases masks with _ | ⟨a, rest⟩
  · cases h0
  obtain rfl : m0 = a := (show a = m0 by simpa using h0).symm
  subst hc
  have hbody : ∀ (i : Nat), i < m0.length → ∃ hd tl, m0.getD i [] = hd :: tl ∧
      voteBody pmf (m0 :: rest) choice i =
        some (pmf [(hd.1, if (i : Int) = choice then 2 else 1)]
          ((m0 :: rest).map (fun m => m.getD i ([] : List (K × V))))) := by
    intro i hi
    have hmapm : (m0 :: rest).mapM (fun mask => mask[i]?) =
        some ((m0 :: rest).map (fun m => m.getD i ([] : List (K × V)))) := by
      refine mapM_option_eq_map ?_
      intro m hm
      have him : i < m.length := by rw [hlen m hm]; exact hi
      simp [List.getD_eq_getElem?_getD, List.getElem?_eq_getElem him]
    have hm0i : m0.getD i [] = m0[i] := by
      simp [List.getD_eq_getElem?_getD, List.getElem?_eq_getElem hi]
    have hne0 : m0.getD i [] ≠ [] := by
      rw [hm0i]; exact hkey _ (List.getElem_mem hi)
    obtain ⟨hd, tl, hmk⟩ := List.exists_cons_of_ne_nil hne0
    refine ⟨hd, tl, hmk, ?_⟩
    rw [voteBody, hmapm]
    simp only [List.map_cons, List.head?_cons, Option.some_bind, hmk]
  have hsucc : ∀ i ∈ List.range m0.length,
      ∃ b, voteBody pmf (m0 :: rest) choice i = some b := by
    intro i hi
    rw [List.mem_range] at hi
    obtain ⟨hd, tl, _, hF⟩ := hbody i hi
    exact ⟨_, hF⟩
  obtain ⟨entries, hent, hlenE, hpt⟩ := mapM_option_exists hsucc
  refine ⟨entries, ?_, by simp [hlenE], ?_⟩
  · rw [vote_eq_body, List.head?_cons, Option.some_bind, hent]
  · intro i cols key hcols hk
    have hi : i < m0.length := by
      obtain ⟨-, hall⟩ := mapM_option_some hcols
      obtain ⟨b, hb⟩ := hall m0 (by simp)
      by_contra hge
      rw [List.getElem?_eq_none (Nat.le_of_not_lt hge)] at hb
      cases hb
    obtain ⟨hd, tl, hmk, hF⟩ := hbody i hi
    have hmapm : (m0 :: rest).mapM (fun mask => mask[i]?) =
        some ((m0 :: rest).map (fun m => m.getD i ([] : List (K × V)))) := by
      refine mapM_option_eq_map ?_
      intro m hm
      have him : i < m.length := by rw [hlen m hm]; exact hi
      simp [List.getD_eq_getElem?_getD, List.getElem?_eq_getElem him]
    obtain rfl : (m0 :: rest).map (fun m => m.getD i ([] : List (K × V))) = cols := by
      have := hmapm.symm.trans hcols
      exact Option.some.inj this
    obtain rfl : hd.1 = key := by
      simp only [List.map_cons, List.head?_cons, Option.some_bind, hmk] at hk
      simpa using hk
    rw [hpt i, List.getElem?_range hi, Option.some_bind, hF]

/-- C2: for a masks collection with at least one node where every node's
mask list has length `c` (the first node's masks each carrying a key),
`vote` is a sequence of length `c`; entry `i` combines, via the
primitive's masked-factors operation, the mapping assigning `2` if
`i = choice` and `1` otherwise to the first key of the first node's
slot-`i` mask, with the slot-`i` masks collected from all nodes; and for
`choice` in `[0, c)` exactly one slot carries factor `2`. -/
theorem vote_spec {K V M : Type} (pmf : List (K × Nat) → List (List (K × V)) → M)
    (masks : List (List (List (K × V)))) (choice : Int)
    (m0 : List (List (K × V))) (c : Nat)
    (h0 : masks.head? = some m0) (hc : m0.length = c)
    (hlen : ∀ m ∈ masks, m.length = c) (hkey : ∀ mk ∈ m0, mk ≠ []) :
    (∃ entries, vote pmf masks choice = some entries ∧ entries.length = c ∧
      ∀ (i : Nat) (cols : List (List (K × V))) (key : K),
        masks.mapM (fun m => m[i]?) = some cols →
        (cols.head?).bind (fun mk => (mk.map Prod.fst).head?) = some key →
        entries[i]? = some (pmf [(key, if (i : Int) = choice then 2 else 1)] cols)) ∧
    (0 ≤ choice → choice < (c : Int) →
      ∃! i : Nat, i < c ∧ (if (i : Int) = choice then (2 : Nat) else 1) = 2) := by
  refine ⟨vote_char pmf masks choice m0 c h0 hc hlen hkey, ?_⟩
  intro hnn hlt
  refine ⟨choice.toNat, ⟨by omega, ?_⟩, ?_⟩
  · rw [if_pos (by omega : ((choice.toNat : Nat) : Int) = choice)]
  · rintro y ⟨hy, hy2⟩
    by_cases h : (y : Int) = choice
    · omega
    · rw [if_neg h] at hy2
      exact absurd hy2 (by decide)

/-- C2 witness: two nodes, two choice-slots, vote for choice `1`. -/
theorem vote_spec_witness :
    (∃ entries, vote (fun (cv : List (Nat × Nat)) (ms : List (List (Nat × Nat))) => (cv, ms))
        [[[(0, 10)], [(0, 11)]], [[(0, 20)], [(0, 21)]]] 1 = some entries ∧
      entries.length = 2 ∧
      ∀ (i : Nat) (cols : List (List (Nat × Nat))) (key : Nat),
        ([[[(0, 10)], [(0, 11)]], [[(0, 20)], [(0, 21)]]] :
            List (List (List (Nat × Nat)))).mapM (fun m => m[i]?) = some cols →
        (cols.head?).bind (fun mk => (mk.map Prod.fst).head?) = some key →
        entries[i]? = some ([(key, if (i : Int) = 1 then 2 else 1)], cols)) ∧
    (0 ≤ (1 : Int) → (1 : Int) < ((2 : Nat) : Int) →
      ∃! i : Nat, i < 2 ∧ (if (i : Int) = 1 then (2 : Nat) else 1) = 2) :=
  vote_spec (fun cv ms => (cv, ms)) [[[(0, 10)], [(0, 11)]], [[(0, 20)], [(0, 21)]]] 1
    [[(0, 10)], [(0, 11)]] 2 rfl rfl (by decide) (by decide)

/-- C6: for `choice` outside `[0, c)` and a valid masks collection,
`vote` still succeeds and produces a vote in which no slot is marked with
factor `2`: every slot's coordinate-to-value mapping assigns `1`. -/
theorem vote_out_of_range {K V M : Type} (pmf : List (K × Nat) → List (List (K × V)) → M)
    (masks : List (List (List (K × V)))) (choice : Int)
    (m0 : List (List (K × V))) (c : Nat)
    (h0 : masks.head? = some m0) (hc : m0.length = c)
    (hlen : ∀ m ∈ masks, m.length = c) (hkey : ∀ mk ∈ m0, mk ≠ [])
    (hout : choice < 0 ∨ (c : Int) ≤ choice) :
    ∃ entries, vote pmf masks choice = some entries ∧ entries.length = c ∧
      ∀ (i : Nat) (cols : List (List (K × V))) (key : K),
        masks.mapM (fun m => m[i]?) = some cols →
        (cols.head?).bind (fun mk => (mk.map Prod.fst).head?) = some key →
        entries[i]? = some (pmf [(key, 1)] cols) := by
  obtain ⟨entries, hv, hl, hpt⟩ := vote_char pmf masks choice m0 c h0 hc hlen hkey
  refine ⟨entries, hv, hl, ?_⟩
  intro i cols key hcols hk
  have hm0 : m0 ∈ masks := by
    rcases masks with _ | ⟨a, rest⟩
    · cases h0
    · obtain rfl : m0 = a := (show a = m0 by simpa using h0).symm
      simp
  have hi : i < c := by
    obtain ⟨-, hall⟩ := mapM_option_some hcols
    obtain ⟨b, hb⟩ := hall m0 hm0
    by_contra hge
    rw [List.getElem?_eq_none (by rw [hlen m0 hm0]; exact Nat.le_of_not_lt hge)] at hb
    cases hb
  have hne : ¬ (i : Int) = choice := by omega
  have := hpt i cols key hcols hk
  rw [if_neg hne] at this
  exact this

/-- C6 witness: the same two-node collection with out-of-range choice `5`. -/
theorem vote_out_of_range_witness :
    ∃ entries, vote (fun (cv : List (Nat × Nat)) (ms : List (List (Nat × Nat))) => (cv, ms))
        [[[(0, 10)], [(0, 11)]], [[(0, 20)], [(0, 21)]]] 5 = some entries ∧
      entries.length = 2 ∧
      ∀ (i : Nat) (cols : List (List (Nat × Nat))) (key : Nat),
        ([[[(0, 10)], [(0, 11)]], [[(0, 20)], [(0, 21)]]] :
            List (List (List (Nat × Nat)))).mapM (fun m => m[i]?) = some cols →
        (cols.head?).bind (fun mk => (mk.map Prod.fst).head?) = some key →
        entries[i]? = some ([(key, 1)], cols) :=
  vote_out_of_range (fun cv ms => (cv, ms)) [[[(0, 10)], [(0, 11)]], [[(0, 20)], [(0, 21)]]] 5
    [[(0, 10)], [(0, 11)]] 2 rfl rfl (by decide) (by decide) (by decide)

/-! ### Characterization of `node.outcome` -/

theorem outcome_eq_body {S M F : Type} (pcompute : S → List Nat → List M → F × S)
    (nd : node S) (votes : List (List M)) :
    node.outcome pcompute nd votes =
      (votes.head?).bind (fun v0 =>
        (nd._signature).bind (fun sig =>
          (nd._nodes).bind (fun subs =>
            ((List.range v0.length).mapM
                (outcomeBody pcompute sig subs votes)).bind (fun results =>
              some (results.map Prod.fst,
                { nd with
                  _nodes := some (results.map Prod.snd ++ subs.drop v0.length) }))))) :=
  rfl

/-- Success characterization of `node.outcome`: on a batch headed by
`v0`, with `v0.length` within both the sub-instance count and every
vote's length, the call succeeds, processes exactly `v0.length` slots,
computes slot `i` by passing the signature and the batch of `i`-th
contributions to the `i`-th sub-instance's compute step, and leaves the
signature, the choices count and the remaining sub-instances unchanged. -/
theorem outcome_char {S M F : Type} (pcompute : S → List Nat → List M → F × S)
    (nd : node S) (votes : List (List M)) (sig : List Nat) (subs : List S)
    (v0 : List M) (vrest : List (List M)) (hv : votes = v0 :: vrest)
    (hsig : nd._signature = some sig) (hsubs : nd._nodes = some subs)
    (hk : v0.length ≤ subs.length) (hvl : ∀ v ∈ votes, v0.length ≤ v.length) :
    ∃ shares nd2, node.outcome pcompute nd votes = some (shares, nd2) ∧
      shares.length = v0.length ∧
      (∀ (i : Nat) (s : S) (col : List M), i < v0.length → subs[i]? = some s →
        votes.mapM (fun v => v[i]?) = some col →
        shares[i]? = some (pcompute s sig col).1) ∧
      nd2._signature = nd._signature ∧ nd2._choices = nd._choices ∧
      ∃ subs2, nd2._nodes = some subs2 ∧ subs2.length = subs.length ∧
        ∀ i : Nat, v0.length ≤ i → subs2[i]? = subs[i]? := by
  subst hv
  have hsucc : ∀ i ∈ List.range v0.length,
      ∃ b, outcomeBody pcompute sig subs (v0 :: vrest) i = some b := by
    intro i hi
    rw [List.mem_range] at hi
    have his : i < subs.length := Nat.lt_of_lt_of_le hi hk
    obtain ⟨col, hcol, -, -⟩ := mapM_option_exists
      (f := fun (v : List M) => v[i]?) (l := v0 :: vrest) (fun v hvm => by
        have : i < v.length := Nat.lt_of_lt_of_le hi (hvl v hvm)
        exact ⟨v[i], List.getElem?_eq_getElem this⟩)
    exact ⟨pcompute subs[i] sig col, by
      rw [outcomeBody, List.getElem?_eq_getElem his, Option.some_bind, hcol,
        Option.some_bind]⟩
  obtain ⟨results, hres, hresl, hrespt⟩ := mapM_option_exists hsucc
  have hreslen : results.length = v0.length := by simpa using hresl
  refine ⟨results.map Prod.fst,
    { nd with _nodes := some (results.map Prod.snd ++ subs.drop v0.length) },
    ?_, by simp [hreslen], ?_, rfl, rfl, ?_⟩
  · rw [outcome_eq_body, List.head?_cons, Option.some_bind, hsig, Option.some_bind,
      hsubs, Option.some_bind, hres, Option.some_bind]
  · intro i s col hi hs hcol
    have hbody : outcomeBody pcompute sig subs (v0 :: vrest) i =
        some (pcompute s sig col) := by
      rw [outcomeBody, hs, Option.some_bind, hcol, Option.some_bind]
    rw [List.getElem?_map, hrespt i, List.getElem?_range hi, Option.some_bind, hbody]
    rfl
  · refine ⟨results.map Prod.snd ++ subs.drop v0.length, rfl, ?_, ?_⟩
    · simp [hreslen]
      omega
    · intro i hi
      rw [List.getElem?_append_right (by simp [hreslen]; omega), List.getElem?_drop]
      congr 1
      simp [hreslen]
      omega

/-- C4: on a preprocessed node (signature `sig`, `c` sub-instances) and a
non-empty batch of votes each of length `c`, `node.outcome` returns one
partial result per slot: entry `i` is the first component of the compute
step of the `i`-th sub-instance applied to the signature and the batch of
the `i`-th masked contribution of every vote. -/
theorem outcome_spec {S M F : Type} (pcompute : S → List Nat → List M → F × S)
    (nd : node S) (votes : List (List M)) (sig : List Nat) (subs : List S) (c : Nat)
    (_hch : nd._choices = some c) (hsig : nd._signature = some sig)
    (hsubs : nd._nodes = some subs) (hlenS : subs.length = c)
    (hne : votes ≠ []) (hv : ∀ v ∈ votes, v.length = c) :
    ∃ shares nd2, node.outcome pcompute nd votes = some (shares, nd2) ∧
      shares.length = c ∧
      ∀ (i : Nat) (s : S) (col : List M), subs[i]? = some s →
        votes.mapM (fun v => v[i]?) = some col →
        shares[i]? = some (pcompute s sig col).1 := by
  obtain ⟨v0, vrest, rfl⟩ := List.exists_cons_of_ne_nil hne
  have hv0 : v0.length = c := hv v0 (by simp)
  obtain ⟨shares, nd2, hout, hsl, hpt, -, -, -⟩ :=
    outcome_char pcompute nd (v0 :: vrest) sig subs v0 vrest rfl hsig hsubs
      (by omega) (fun v hvm => by rw [hv v hvm, hv0])
  refine ⟨shares, nd2, hout, by omega, ?_⟩
  intro i s col hs hcol
  have hi : i < v0.length := by
    by_contra hge
    rw [List.getElem?_eq_none (by omega : subs.length ≤ i)] at hs
    cases hs
  exact hpt i s col hi hs hcol

/-- C4 witness: one node with two sub-instances, two votes of length two. -/
theorem outcome_spec_witness :
    ∃ shares nd2,
      node.outcome (fun (s : Nat) (sig : List Nat) (col : List Nat) =>
          (s + sig.sum + col.sum, s))
        (⟨some [2], some 2, some [10, 20]⟩ : node Nat) [[1, 2], [1, 1]] =
        some (shares, nd2) ∧
      shares.length = 2 ∧
      ∀ (i : Nat) (s : Nat) (col : List Nat), ([10, 20] : List Nat)[i]? = some s →
        ([[1, 2], [1, 1]] : List (List Nat)).mapM (fun v => v[i]?) = some col →
        shares[i]? = some (s + [2].sum + col.sum) :=
  outcome_spec (fun s sig col => (s + sig.sum + col.sum, s))
    (⟨some [2], some 2, some [10, 20]⟩ : node Nat) [[1, 2], [1, 1]]
    [2] [10, 20] 2 rfl rfl rfl rfl (by decide) (by decide)

/-- C9: a successful `node.outcome` call leaves the node's stored
signature and choices count unchanged and never replaces the sequence of
sub-instances: the `_nodes` list keeps its length, and every slot from
the processed prefix onward keeps its state — only the sub-instances
driven through the compute step may change in place.  (`node.masks`,
`vote` and `reveal` perform no assignment in the source and are embedded
as pure functions of their inputs, so they cannot alter any node state.) -/
theorem outcome_frame {S M F : Type} (pcompute : S → List Nat → List M → F × S)
    (nd : node S) (votes : List (List M)) (shares : List F) (nd2 : node S)
    (h : node.outcome pcompute nd votes = some (shares, nd2)) :
    nd2._signature = nd._signature ∧ nd2._choices = nd._choices ∧
    ∀ subs : List S, nd._nodes = some subs →
      ∃ subs2, nd2._nodes = some subs2 ∧ subs2.length = subs.length ∧
        ∀ i : Nat, (votes.headD []).length ≤ i → subs2[i]? = subs[i]? := by
  rw [outcome_eq_body] at h
  rw [Option.bind_eq_some] at h
  obtain ⟨v0, hv0, h⟩ := h
  rw [Option.bind_eq_some] at h
  obtain ⟨sig, hsig, h⟩ := h
  rw [Option.bind_eq_some] at h
  obtain ⟨subs, hsubs, h⟩ := h
  rw [Option.bind_eq_some] at h
  obtain ⟨results, hres, h⟩ := h
  rw [Option.some.injEq, Prod.mk.injEq] at h
  obtain ⟨-, hnd2⟩ := h
  obtain ⟨hreslen0, hall⟩ := mapM_option_some hres
  have hreslen : results.length = v0.length := by simpa using hreslen0
  have hk : v0.length ≤ subs.length := by
    rcases Nat.eq_zero_or_pos v0.length with h0 | hpos
    · omega
    · obtain ⟨b, hb⟩ := hall (v0.length - 1) (by rw [List.mem_range]; omega)
      rw [outcomeBody, Option.bind_eq_some] at hb
      obtain ⟨s, hs, -⟩ := hb
      by_contra hge
      rw [List.getElem?_eq_none (by omega)] at hs
      cases hs
  refine ⟨by rw [← hnd2], by rw [← hnd2], ?_⟩
  intro subs' hsubs'
  obtain rfl : subs = subs' := Option.some.inj (hsubs.symm.trans hsubs')
  refine ⟨results.map Prod.snd ++ subs.drop v0.length, by rw [← hnd2], ?_, ?_⟩
  · simp [hreslen]
    omega
  · intro i hi
    have hhead : votes.headD [] = v0 := by
      rcases votes with _ | ⟨a, r⟩
      · cases hv0
      · simpa using hv0
    rw [hhead] at hi
    rw [List.getElem?_append_right (by simp [hreslen]; omega), List.getElem?_drop]
    congr 1
    simp [hreslen]
    omega

/-- C9 witness: a concrete successful outcome call on a preprocessed
node with two sub-instances. -/
theorem outcome_frame_witness :
    (⟨some [2], some 2,
        some ((([(10 + [2].sum + [1, 1].sum, 10), (20 + [2].sum + [2, 1].sum, 20)] :
          List (Nat × Nat)).map Prod.snd) ++
          ([10, 20] : List Nat).drop 2)⟩ : node Nat)._signature =
        (⟨some [2], some 2, some [10, 20]⟩ : node Nat)._signature ∧
    (⟨some [2], some 2,
        some ((([(10 + [2].sum + [1, 1].sum, 10), (20 + [2].sum + [2, 1].sum, 20)] :
          List (Nat × Nat)).map Prod.snd) ++
          ([10, 20] : List Nat).drop 2)⟩ : node Nat)._choices =
        (⟨some [2], some 2, some [10, 20]⟩ : node Nat)._choices ∧
    ∀ subs : List Nat,
      (⟨some [2], some 2, some [10, 20]⟩ : node Nat)._nodes = some subs →
      ∃ subs2,
        (⟨some [2], some 2,
            some ((([(10 + [2].sum + [1, 1].sum, 10), (20 + [2].sum + [2, 1].sum, 20)] :
              List (Nat × Nat)).map Prod.snd) ++
              ([10, 20] : List Nat).drop 2)⟩ : node Nat)._nodes = some subs2 ∧
        subs2.length = subs.length ∧
        ∀ i : Nat, (([[1, 2], [1, 1]] : List (List Nat)).headD []).length ≤ i →
          subs2[i]? = subs[i]? :=
  outcome_frame (fun (s : Nat) (sig : List Nat) (col : List Nat) =>
      (s + sig.sum + col.sum, s))
    (⟨some [2], some 2, some [10, 20]⟩ : node Nat) [[1, 2], [1, 1]]
    [10 + [2].sum + [1, 1].sum, 20 + [2].sum + [2, 1].sum]
    (⟨some [2], some 2,
        some ((([(10 + [2].sum + [1, 1].sum, 10), (20 + [2].sum + [2, 1].sum, 20)] :
          List (Nat × Nat)).map Prod.snd) ++
          ([10, 20] : List Nat).drop 2)⟩ : node Nat)
    (by decide)

/-- C10 counterexample: on a preprocessed node configured with one
choice-slot (one sub-instance), a batch whose votes have length `2`
does not yield a length-`2` share — the call fails when indexing the
second sub-instance. -/
theorem outcome_wide_counterexample :
    node.outcome (fun (s : Nat) (sig : List Nat) (col : List Nat) =>
        (col.sum + sig.sum, s))
      (⟨some [1], some 1, some [0]⟩ : node Nat) [[5, 5]] = none := by
  decide

/-- C10 amended: `node.outcome` takes the number of slots it processes
from the length `k` of the first vote, not from the node's stored
`_choices` count; when `k` is at most the number of sub-instances the
returned share has length `k` even when `k` differs from the configured
count, when `k` exceeds the number of sub-instances the call fails, and
on the empty votes sequence the call fails when indexing the first vote. -/
theorem outcome_slots_from_first_vote {S M F : Type}
    (pcompute : S → List Nat → List M → F × S)
    (nd : node S) (votes : List (List M)) (sig : List Nat) (subs : List S)
    (v0 : List M) (vrest : List (List M)) (hv : votes = v0 :: vrest)
    (hsig : nd._signature = some sig) (hsubs : nd._nodes = some subs)
    (hk : v0.length ≤ subs.length) (hvl : ∀ v ∈ votes, v.length = v0.length) :
    (∃ shares nd2, node.outcome pcompute nd votes = some (shares, nd2) ∧
      shares.length = v0.length) ∧
    node.outcome pcompute nd [] = none := by
  constructor
  · obtain ⟨shares, nd2, hout, hsl, -, -, -, -⟩ :=
      outcome_char pcompute nd votes sig subs v0 vrest hv hsig hsubs hk
        (fun v hvm => by rw [hvl v hvm])
    exact ⟨shares, nd2, hout, hsl⟩
  · rw [outcome_eq_body]
    rfl

/-- C10 witness: a node configured with two choice-slots processes a
batch of one-entry votes into a share of length one. -/
theorem outcome_slots_from_first_vote_witness :
    (∃ shares nd2,
      node.outcome (fun (s : Nat) (sig : List Nat) (col : List Nat) =>
          (s + sig.sum + col.sum, s))
        (⟨some [1], some 2, some [10, 20]⟩ : node Nat) [[7]] =
        some (shares, nd2) ∧
      shares.length = ([7] : List Nat).length) ∧
    node.outcome (fun (s : Nat) (sig : List Nat) (col : List Nat) =>
        (s + sig.sum + col.sum, s))
      (⟨some [1], some 2, some [10, 20]⟩ : node Nat) [] = none :=
  outcome_slots_from_first_vote (fun s sig col => (s + sig.sum + col.sum, s))
    (⟨some [1], some 2, some [10, 20]⟩ : node Nat) [[7]] [1] [10, 20]
    [7] [] rfl rfl rfl (by decide) (by decide)

/-! ### Characterization of `preprocess` -/

/-- Invariant of the slot loop of `preprocess`, by induction on the
number `k` of already-processed slots: the matrix of sub-instance states
keeps `n` rows of length `c`; slots not yet processed still hold the
fresh state `pnew`; and every processed slot `i < k` of row `j` holds the
`j`-th output of the joint `ppre` call on the all-fresh column
`replicate n pnew` (each slot's column is exactly that, since the slots
are pairwise disjoint). -/
theorem preprocess_fold_char {S : Type} (pnew : S) (ppre : List Nat → List S → List S)
    (sig : List Nat) (hlen : ∀ s l, (ppre s l).length = l.length) (n c : Nat) :
    ∀ k, k ≤ c →
      ((List.range k).foldl (preprocessStep pnew ppre sig)
          (List.replicate n (List.replicate c pnew))).length = n ∧
      (∀ row ∈ (List.range k).foldl (preprocessStep pnew ppre sig)
          (List.replicate n (List.replicate c pnew)), row.length = c) ∧
      (∀ row ∈ (List.range k).foldl (preprocessStep pnew ppre sig)
          (List.replicate n (List.replicate c pnew)),
        ∀ i : Nat, k ≤ i → row.getD i pnew = pnew) ∧
      (∀ j i : Nat, i < k →
        (((List.range k).foldl (preprocessStep pnew ppre sig)
            (List.replicate n (List.replicate c pnew))).getD j []).getD i pnew =
          (ppre sig (List.replicate n pnew)).getD j pnew) := by
  intro k
  induction k with
  | zero =>
    intro _
    refine ⟨by simp, ?_, ?_, ?_⟩
    · intro row hrow
      rw [List.eq_of_mem_replicate hrow]
      simp
    · intro row hrow i _
      rw [List.eq_of_mem_replicate hrow]
      rcases Nat.lt_or_ge i c with h | h
      · simp [List.getD_eq_getElem?_getD, List.getElem?_replicate, h]
      · simp [List.getD_eq_getElem?_getD,
          List.getElem?_eq_none (by simpa using h :
            (List.replicate c pnew).length ≤ i)]
    · intro j i h
      exact absurd h (Nat.not_lt_zero i)
  | succ k ih =>
    intro hk1
    have hkle : k ≤ c := Nat.le_of_succ_le hk1
    obtain ⟨ih1, ih2, ih3, ih4⟩ := ih hkle
    have hstep : (List.range (k + 1)).foldl (preprocessStep pnew ppre sig)
        (List.replicate n (List.replicate c pnew)) =
        preprocessStep pnew ppre sig
          ((List.range k).foldl (preprocessStep pnew ppre sig)
            (List.replicate n (List.replicate c pnew))) k := by
      rw [List.range_succ, List.foldl_append]
      rfl
    set res := (List.range k).foldl (preprocessStep pnew ppre sig)
      (List.replicate n (List.replicate c pnew)) with hresdef
    have hcol : res.map (fun row => row.getD k pnew) = List.replicate n pnew := by
      rw [List.eq_replicate_iff]
      refine ⟨by simp [ih1], ?_⟩
      intro b hb
      rw [List.mem_map] at hb
      obtain ⟨row, hrow, hbe⟩ := hb
      rw [← hbe]
      exact ih3 row hrow k (Nat.le_refl k)
    have hC : preprocessStep pnew ppre sig res k =
        List.zipWith (fun row s => row.set k s) res
          (ppre sig (List.replicate n pnew)) := by
      rw [preprocessStep, hcol]
    have hClen : (ppre sig (List.replicate n pnew)).length = n := by
      rw [hlen]; simp
    rw [hstep, hC]
    have hzlen : (List.zipWith (fun row s => row.set k s) res
        (ppre sig (List.replicate n pnew))).length = n := by
      simp [List.length_zipWith, ih1, hClen]
    refine ⟨hzlen, ?_, ?_, ?_⟩
    · intro row hrow
      rw [List.mem_iff_getElem] at hrow
      obtain ⟨j, hj, hje⟩ := hrow
      rw [List.getElem_zipWith] at hje
      rw [← hje, List.length_set]
      exact ih2 _ (List.getElem_mem _)
    · intro row hrow i hi
      rw [List.mem_iff_getElem] at hrow
      obtain ⟨j, hj, hje⟩ := hrow
      rw [List.getElem_zipWith] at hje
      rw [← hje, List.getD_eq_getElem?_getD,
        List.getElem?_set_ne (by omega : k ≠ i), ← List.getD_eq_getElem?_getD]
      exact ih3 _ (List.getElem_mem _) i (by omega)
    · intro j i hi
      rcases Nat.lt_or_ge j n with hj | hj
      · have hjres : j < res.length := by omega
        obtain ⟨row, hrow⟩ : ∃ row, res[j]? = some row :=
          ⟨_, List.getElem?_eq_getElem hjres⟩
        have hrowlen : row.length = c :=
          ih2 row (List.mem_iff_getElem?.mpr ⟨j, hrow⟩)
        obtain ⟨cj, hcj⟩ : ∃ cj, (ppre sig (List.replicate n pnew))[j]? = some cj :=
          ⟨_, List.getElem?_eq_getElem (by omega)⟩
        have hzj : (List.zipWith (fun row s => row.set k s) res
            (ppre sig (List.replicate n pnew)))[j]? = some (row.set k cj) := by
          rw [List.getElem?_zipWith, hrow, hcj]
        simp only [List.getD_eq_getElem?_getD]
        rw [hzj, hcj]
        simp only [Option.getD_some]
        rcases Nat.lt_or_ge i k with hik | hik
        · rw [List.getElem?_set_ne (by omega : k ≠ i)]
          have h4 := ih4 j i hik
          simp only [List.getD_eq_getElem?_getD] at h4
          rw [hrow, hcj] at h4
          simpa using h4
        · have hieq : i = k := by omega
          subst hieq
          rw [List.getElem?_set_eq_of_lt _ (by omega)]
          rfl
      · simp only [List.getD_eq_getElem?_getD]
        rw [List.getElem?_eq_none (by omega :
            (List.zipWith (fun row s => row.set k s) res
              (ppre sig (List.replicate n pnew))).length ≤ j),
          List.getElem?_eq_none (by omega :
            (ppre sig (List.replicate n pnew)).length ≤ j)]
        simp

/-- C3: `preprocess` stores `[votes]` as the signature and `choices` in
every node, gives every node a fresh sequence of `choices` sub-instances
(prior node state is discarded — only the number of nodes matters), and
fills slot `i` of node `j` with the `j`-th output of the joint `ppre`
invocation on the signature together with the column of all nodes' fresh
`i`-th sub-instances (each slot's column being `replicate nodes.length
pnew`, one joint invocation per slot). -/
theorem preprocess_spec {S : Type} (pnew : S) (ppre : List Nat → List S → List S)
    (nodes : List (node S)) (votes choices : Nat)
    (hlen : ∀ sig l, (ppre sig l).length = l.length) :
    (preprocess pnew ppre nodes votes choices).length = nodes.length ∧
    (∀ nodes2 : List (node S), nodes2.length = nodes.length →
      preprocess pnew ppre nodes2 votes choices =
        preprocess pnew ppre nodes votes choices) ∧
    ∀ (j : Nat) (nd : node S),
      (preprocess pnew ppre nodes votes choices)[j]? = some nd →
      nd._signature = some [votes] ∧ nd._choices = some choices ∧
      ∃ subs, nd._nodes = some subs ∧ subs.length = choices ∧
        ∀ i : Nat, i < choices →
          subs[i]? = (ppre [votes] (List.replicate nodes.length pnew))[j]? := by
  obtain ⟨h1, h2, -, h4⟩ := preprocess_fold_char pnew ppre [votes] hlen
    nodes.length choices choices (Nat.le_refl choices)
  set mats := (List.range choices).foldl (preprocessStep pnew ppre [votes])
    (List.replicate nodes.length (List.replicate choices pnew)) with hmats
  have hpre : preprocess pnew ppre nodes votes choices =
      mats.map (fun subs => ⟨some [votes], some choices, some subs⟩) := rfl
  refine ⟨?_, ?_, ?_⟩
  · rw [hpre]
    simp [h1]
  · intro nodes2 hn2
    simp only [preprocess]
    rw [hn2]
  · intro j nd hnd
    rw [hpre, List.getElem?_map, Option.map_eq_some'] at hnd
    obtain ⟨subs, hsubs, rfl⟩ := hnd
    have hj : j < mats.length := by
      by_contra hge
      rw [List.getElem?_eq_none (Nat.le_of_not_lt hge)] at hsubs
      cases hsubs
    have hsl : subs.length = choices :=
      h2 subs (List.mem_iff_getElem?.mpr ⟨j, hsubs⟩)
    refine ⟨rfl, rfl, subs, rfl, hsl, ?_⟩
    intro i hi
    have hjC : j < (ppre [votes] (List.replicate nodes.length pnew)).length := by
      rw [hlen]
      simp only [List.length_replicate]
      omega
    have h4' := h4 j i hi
    simp only [List.getD_eq_getElem?_getD] at h4'
    rw [hsubs, Option.getD_some, List.getElem?_eq_getElem (by omega : i < subs.length),
      List.getElem?_eq_getElem hjC, Option.getD_some, Option.getD_some] at h4'
    rw [List.getElem?_eq_getElem (by omega : i < subs.length),
      List.getElem?_eq_getElem hjC, h4']

/-- C3 witness: two fresh nodes, `votes = 3`, `choices = 2`, with a
length-preserving joint preprocessing operation. -/
theorem preprocess_spec_witness :
    (preprocess (0 : Nat) (fun sig l => l.map (fun x => x + sig.length))
        [node.init, node.init] 3 2).length =
      ([node.init, node.init] : List (node Nat)).length ∧
    (∀ nodes2 : List (node Nat),
      nodes2.length = ([node.init, node.init] : List (node Nat)).length →
      preprocess 0 (fun sig l => l.map (fun x => x + sig.length)) nodes2 3 2 =
        preprocess 0 (fun sig l => l.map (fun x => x + sig.length))
          [node.init, node.init] 3 2) ∧
    ∀ (j : Nat) (nd : node Nat),
      (preprocess 0 (fun sig l => l.map (fun x => x + sig.length))
          [node.init, node.init] 3 2)[j]? = some nd →
      nd._signature = some [3] ∧ nd._choices = some 2 ∧
      ∃ subs, nd._nodes = some subs ∧ subs.length = 2 ∧
        ∀ i : Nat, i < 2 →
          subs[i]? = ((fun (sig : List Nat) (l : List Nat) =>
              l.map (fun x => x + sig.length)) [3]
            (List.replicate ([node.init, node.init] : List (node Nat)).length 0))[j]? :=
  preprocess_spec 0 (fun sig l => l.map (fun x => x + sig.length))
    [node.init, node.init] 3 2 (fun sig l => by simp)

end TinyVote
